import Mathlib

/-!
Verification of the core of `blockchain.py`: block hashing, the proof-of-work
puzzle, chain validation, block/transaction creation, and the longest-chain
conflict-resolution procedure.  Python machine-level details are embedded as
follows: `hashlib.sha256(...).hexdigest()` is implemented bit-for-bit over
`Nat` byte lists; Python strings are `String`/`List Char`; string slicing is
list `take`; a Python `dict` block is a typed record (for chain operations)
and a `Json` tree (for the canonical-hash claims); a statement that raises an
exception is modelled with `Option`/an explicit exception constructor.
-/

set_option maxRecDepth 100000

namespace SHA256

/-- Truncate to a 32-bit word (Python ints are unbounded; SHA-256 words are
mod 2^32). -/
def w32 (n : Nat) : Nat := n % 4294967296

/-- Right rotation of a 32-bit word by `n` places. -/
def rotr (n x : Nat) : Nat := w32 ((x >>> n) ||| (x <<< (32 - n)))

def bigS0 (x : Nat) : Nat := rotr 2 x ^^^ rotr 13 x ^^^ rotr 22 x

def bigS1 (x : Nat) : Nat := rotr 6 x ^^^ rotr 11 x ^^^ rotr 25 x

def smallS0 (x : Nat) : Nat := rotr 7 x ^^^ rotr 18 x ^^^ (x >>> 3)

def smallS1 (x : Nat) : Nat := rotr 17 x ^^^ rotr 19 x ^^^ (x >>> 10)

/-- The 64 SHA-256 round constants. -/
def K : List Nat :=
  [1116352408, 1899447441, 3049323471, 3921009573, 961987163,
   1508970993, 2453635748, 2870763221, 3624381080, 310598401,
   607225278, 1426881987, 1925078388, 2162078206, 2614888103,
   3248222580, 3835390401, 4022224774, 264347078, 604807628,
   770255983, 1249150122, 1555081692, 1996064986, 2554220882,
   2821834349, 2952996808, 3210313671, 3336571891, 3584528711,
   113926993, 338241895, 666307205, 773529912, 1294757372,
   1396182291, 1695183700, 1986661051, 2177026350, 2456956037,
   2730485921, 2820302411, 3259730800, 3345764771, 3516065817,
   3600352804, 4094571909, 275423344, 430227734, 506948616,
   659060556, 883997877, 958139571, 1322822218, 1537002063,
   1747873779, 1955562222, 2024104815, 2227730452, 2361852424,
   2428436474, 2756734187, 3204031479, 3329325298]

/-- Initial hash state. -/
def H0 : List Nat :=
  [1779033703, 3144134277, 1013904242, 2773480762,
   1359893119, 2600822924, 528734635, 1541459225]

/-- Big-endian 8-byte encoding of the message bit length. -/
def lenBytes (bitLen : Nat) : List Nat :=
  [w32 (bitLen >>> 56) % 256, (bitLen >>> 48) % 256, (bitLen >>> 40) % 256,
   (bitLen >>> 32) % 256, (bitLen >>> 24) % 256, (bitLen >>> 16) % 256,
   (bitLen >>> 8) % 256, bitLen % 256]

/-- SHA-256 padding: append `0x80`, zero bytes to 56 mod 64, then the 64-bit
big-endian bit length. -/
def pad (msg : List Nat) : List Nat :=
  let len := msg.length
  let zeros := (119 - len % 64) % 64
  msg ++ 0x80 :: List.replicate zeros 0 ++ lenBytes (8 * len)

/-- Group bytes into big-endian 32-bit words. -/
def toWords : List Nat → List Nat
  | a :: b :: c :: d :: rest =>
      (a * 16777216 + b * 65536 + c * 256 + d) :: toWords rest
  | _ => []

/-- Split a byte list into 64-byte chunks (fuel-recursive so that the kernel
can evaluate it; the fuel is the list length, which always suffices). -/
def chunk64Aux : Nat → List Nat → List (List Nat)
  | 0, _ => []
  | _, [] => []
  | fuel + 1, a :: rest =>
      (a :: rest).take 64 :: chunk64Aux fuel ((a :: rest).drop 64)

/-- Split a byte list into 64-byte chunks. -/
def chunk64 (l : List Nat) : List (List Nat) := chunk64Aux l.length l

/-- Message-schedule extension.  The word list is kept reversed (most recent
word first), so `w[t-2]` is at position 1, `w[t-7]` at 6, `w[t-15]` at 14 and
`w[t-16]` at 15. -/
def extendLoop (rw : List Nat) : Nat → List Nat
  | 0 => rw
  | k + 1 =>
      extendLoop
        (w32 (smallS1 (rw.getD 1 0) + rw.getD 6 0 + smallS0 (rw.getD 14 0) +
          rw.getD 15 0) :: rw) k

/-- Extend 16 message words to the 64-entry schedule. -/
def schedule (ws : List Nat) : List Nat :=
  (extendLoop ws.reverse 48).reverse

def ch (e f g : Nat) : Nat := (e &&& f) ^^^ ((e ^^^ 4294967295) &&& g)

def maj (a b c : Nat) : Nat := (a &&& b) ^^^ (a &&& c) ^^^ (b &&& c)

/-- One compression round; the state is the list `[a,b,c,d,e,f,g,h]`. -/
def round (st : List Nat) (kw : Nat × Nat) : List Nat :=
  match st with
  | [a, b, c, d, e, f, g, h] =>
      let t1 := w32 (h + bigS1 e + ch e f g + kw.2 + kw.1)
      let t2 := w32 (bigS0 a + maj a b c)
      [w32 (t1 + t2), a, b, c, w32 (d + t1), e, f, g]
  | other => other

/-- Process one 512-bit block. -/
def processBlock (h : List Nat) (blockBytes : List Nat) : List Nat :=
  let ws := schedule (toWords blockBytes)
  let h' := (ws.zip K).foldl round h
  (h.zip h').map fun p => w32 (p.1 + p.2)

/-- SHA-256 over a byte list, as the list of eight 32-bit state words. -/
def sha256 (msg : List Nat) : List Nat :=
  (chunk64 (pad msg)).foldl processBlock H0

def hexDigit (n : Nat) : Char :=
  if n < 10 then Char.ofNat (48 + n) else Char.ofNat (87 + n)

/-- Eight lowercase hex digits of a 32-bit word. -/
def wordHex (w : Nat) : List Char :=
  [hexDigit (w >>> 28 % 16), hexDigit (w >>> 24 % 16), hexDigit (w >>> 20 % 16),
   hexDigit (w >>> 16 % 16), hexDigit (w >>> 12 % 16), hexDigit (w >>> 8 % 16),
   hexDigit (w >>> 4 % 16), hexDigit (w % 16)]

/-- `hashlib.sha256(msg).hexdigest()`, as a character list. -/
def hexdigest (msg : List Nat) : List Char :=
  (sha256 msg).foldr (fun w acc => wordHex w ++ acc) []

/-- UTF-8 encoding of one character (`str.encode()`); all data in this
program is ASCII, but the encoding is implemented in full. -/
def utf8Char (c : Char) : List Nat :=
  let n := c.toNat
  if n < 0x80 then [n]
  else if n < 0x800 then [0xc0 ||| (n >>> 6), 0x80 ||| (n &&& 63)]
  else if n < 0x10000 then
    [0xe0 ||| (n >>> 12), 0x80 ||| ((n >>> 6) &&& 63), 0x80 ||| (n &&& 63)]
  else
    [0xf0 ||| (n >>> 18), 0x80 ||| ((n >>> 12) &&& 63),
     0x80 ||| ((n >>> 6) &&& 63), 0x80 ||| (n &&& 63)]

/-- UTF-8 encoding of a character list. -/
def utf8 (cs : List Char) : List Nat :=
  cs.foldr (fun c acc => utf8Char c ++ acc) []

end SHA256

namespace Blockchain

open SHA256

/-- `Blockchain.valid_proof(last_proof, proof)`: the SHA-256 hex digest of
`f'{last_proof}{proof}'` must start with `"0000"` (string slicing is
modelled as `List.take` on the digest's characters). -/
def valid_proof (last_proof proof : Int) : Bool :=
  let guess := utf8 (toString last_proof ++ toString proof).data
  let guess_hash := hexdigest guess
  guess_hash.take 4 == ['0', '0', '0', '0']

/-- `Blockchain.proof_of_work(last_proof)`: the unbounded `while` loop
starting at `proof = 0` and incrementing by 1; it terminates exactly when a
valid proof exists, and `Nat.find` is precisely the first number reached by
that search. -/
def proof_of_work (last_proof : Int)
    (h : ∃ p : Nat, valid_proof last_proof p = true) : Nat :=
  Nat.find h

end Blockchain

namespace Blockchain

open SHA256

/-- A transaction, as appended by `new_transaction`. -/
structure Transaction where
  sender : String
  recipient : String
  amount : Int
deriving DecidableEq

/-- A block dictionary, as constructed by `new_block`.  `time()` returns a
float; the timestamp is modelled as an integer (no claim depends on its
value, only on hashing being a function of it). -/
structure Block where
  index : Int
  timestamp : Int
  transactions : List Transaction
  proof : Int
  previous_hash : String
deriving DecidableEq

/-- JSON values as needed by this program (block and transaction dicts,
lists, strings, numbers).  An object carries its fields in insertion
order. -/
inductive Json where
  | num (n : Int)
  | str (s : String)
  | arr (xs : List Json)
  | obj (kvs : List (String × Json))

/-- Python string comparison on code points (used by `sort_keys=True`). -/
def lexLe : List Char → List Char → Bool
  | [], _ => true
  | _ :: _, [] => false
  | a :: as, b :: bs =>
      if a.toNat < b.toNat then true
      else if b.toNat < a.toNat then false
      else lexLe as bs

/-- Order on keyed fields, comparing the keys as Python does. -/
def keyLe {α : Type} (p q : String × α) : Prop := lexLe p.1.data q.1.data = true

instance {α : Type} : DecidableRel (keyLe (α := α)) :=
  fun _ _ => instDecidableEqBool _ _

def hex4 (n : Nat) : List Char :=
  [hexDigit (n >>> 12 % 16), hexDigit (n >>> 8 % 16), hexDigit (n >>> 4 % 16),
   hexDigit (n % 16)]

/-- `json.dumps` string escaping (default `ensure_ascii=True`): escape `"`
and `\`, short escapes for control characters, `\uXXXX` (with surrogate
pairs) for everything outside printable ASCII. -/
def escapeChar (c : Char) : List Char :=
  let n := c.toNat
  if n = 34 then ['\\', '"']
  else if n = 92 then ['\\', '\\']
  else if n = 8 then ['\\', 'b']
  else if n = 9 then ['\\', 't']
  else if n = 10 then ['\\', 'n']
  else if n = 12 then ['\\', 'f']
  else if n = 13 then ['\\', 'r']
  else if 32 ≤ n && n ≤ 126 then [c]
  else if n < 65536 then '\\' :: 'u' :: hex4 n
  else
    '\\' :: 'u' :: hex4 (55296 + (n - 65536) >>> 10) ++
      '\\' :: 'u' :: hex4 (56320 + (n - 65536) % 1024)

/-- A JSON string literal. -/
def renderString (s : String) : List Char :=
  '"' :: s.data.foldr (fun c acc => escapeChar c ++ acc) ['"']

/-- One rendered `"key": value` item. -/
def renderKV (p : String × List Char) : List Char :=
  renderString p.1 ++ ':' :: ' ' :: p.2

/-- Join with `json.dumps`'s default item separator `", "`. -/
def joinComma : List (List Char) → List Char
  | [] => []
  | [x] => x
  | x :: y :: xs => x ++ ',' :: ' ' :: joinComma (y :: xs)

mutual

/-- `json.dumps(j, sort_keys=True)`: canonical rendering; object fields are
sorted by key before being emitted. -/
def render : Json → List Char
  | .num n => (toString n).data
  | .str s => renderString s
  | .arr xs => '[' :: joinComma (renderArr xs) ++ [']']
  | .obj kvs =>
      '\x7b' ::
        joinComma ((List.insertionSort keyLe (renderPairs kvs)).map renderKV)
        ++ ['\x7d']
  termination_by structural j => j

def renderArr : List Json → List (List Char)
  | [] => []
  | x :: xs => render x :: renderArr xs
  termination_by structural l => l

def renderPairs : List (String × Json) → List (String × List Char)
  | [] => []
  | (k, v) :: kvs => (k, render v) :: renderPairs kvs
  termination_by structural l => l

end

/-- `Blockchain.hash(block)`: SHA-256 hex digest of the canonical (sorted
keys) JSON encoding of the block. -/
def hash (block : Json) : String :=
  ⟨hexdigest (utf8 (render block))⟩

/-- The dict literal built in `new_transaction`, in insertion order. -/
def transactionToJson (t : Transaction) : Json :=
  .obj [("sender", .str t.sender), ("recipient", .str t.recipient),
        ("amount", .num t.amount)]

/-- The dict literal built in `new_block`, in insertion order. -/
def blockToJson (b : Block) : Json :=
  .obj [("index", .num b.index), ("timestamp", .num b.timestamp),
        ("transactions", .arr (b.transactions.map transactionToJson)),
        ("proof", .num b.proof), ("previous_hash", .str b.previous_hash)]

/-- `self.hash(block)` applied to a typed block. -/
def hashBlock (b : Block) : String :=
  hash (blockToJson b)

end Blockchain

namespace Blockchain

/-- Node state: `self.chain`, `self.current_transactions` and `self.nodes`
(the set of netlocs, modelled as a duplicate-free list). -/
structure State where
  chain : List Block
  current_transactions : List Transaction
  nodes : List String
deriving DecidableEq

/-- The `while` loop of `valid_chain`, starting from `last_block = chain[0]`:
check the hash link and the proof of work for each subsequent block,
short-circuiting to `False`. -/
def validWalk (last_block : Block) : List Block → Bool
  | [] => true
  | block :: rest =>
      if block.previous_hash ≠ hashBlock last_block then false
      else if valid_proof last_block.proof block.proof = false then false
      else validWalk block rest

/-- `valid_chain(chain)`.  `chain[0]` raises `IndexError` on an empty list,
modelled as `none`. -/
def valid_chain : List Block → Option Bool
  | [] => none
  | b :: rest => some (validWalk b rest)

/-- `new_block(proof, previous_hash=None)`.  `previous_hash or
self.hash(self.chain[-1])` falls back to the hash of the last block whenever
`previous_hash` is falsy (absent or the empty string); `self.chain[-1]`
raises on an empty chain, modelled as `none`.  On success the block is
appended and the pending-transaction buffer is cleared. -/
def new_block (s : State) (proof : Int) (previous_hash : Option String)
    (t : Int) : Option (State × Block) :=
  let ph? : Option String :=
    match previous_hash with
    | some p => if p = "" then (s.chain.getLast?).map hashBlock else some p
    | none => (s.chain.getLast?).map hashBlock
  match ph? with
  | none => none
  | some ph =>
      let block : Block :=
        { index := (s.chain.length : Int) + 1, timestamp := t,
          transactions := s.current_transactions, proof := proof,
          previous_hash := ph }
      some ({ s with
                current_transactions := [],
                chain := s.chain ++ [block] }, block)

/-- `new_transaction(sender, recipient, amount)`: append to the pending
buffer, then return `self.last_block['index'] + 1` (`none` models the
`IndexError` of `self.chain[-1]` on an empty chain; the append has already
happened at that point). -/
def new_transaction (s : State) (sender recipient : String) (amount : Int) :
    State × Option Int :=
  let s' := { s with current_transactions :=
      s.current_transactions ++ [⟨sender, recipient, amount⟩] }
  (s', (s'.chain.getLast?).map fun lb => lb.index + 1)

/-- `register_node(address)`: `urlparse(address).netloc` is abstracted to
the supplied netloc string; adding to the `set` is an append-if-absent. -/
def register_node (s : State) (netloc : String) : State :=
  { s with nodes := if netloc ∈ s.nodes then s.nodes else s.nodes ++ [netloc] }

/-- The state before `__init__` runs `new_block(previous_hash='1',
proof=100)`. -/
def emptyState : State :=
  { chain := [], current_transactions := [], nodes := [] }

/-- `__init__`: create the genesis block (`t` is the wall-clock timestamp
observed at startup). -/
def init (t : Int) : State :=
  match new_block emptyState 100 (some "1") t with
  | some (s, _) => s
  | none => emptyState

/-- What fetching a peer's `/chain` can yield: a raised exception
(connection error, timeout, malformed body), or a response with a status
code and a parsed `length` and `chain`, both untrusted. -/
inductive PeerResponse where
  | raise
  | ok (status : Nat) (length : Int) (chain : List Block)
deriving DecidableEq

/-- The result of a call that can raise. -/
inductive Outcome where
  | ok (replaced : Bool)
  | exn
deriving DecidableEq

/-- The peer loop of `resolve_conflicts`, carrying `max_length` and
`new_chain`.  A raising fetch propagates (`none`), as does the `IndexError`
raised by `valid_chain` on an empty candidate; Python's `and`
short-circuits, so `valid_chain` only runs when `length > max_length`. -/
def resolveLoop : List PeerResponse → Int → Option (List Block) →
    Option (Int × Option (List Block))
  | [], max_length, new_chain => some (max_length, new_chain)
  | .raise :: _, _, _ => none
  | .ok status length chain :: rest, max_length, new_chain =>
      if status = 200 then
        if max_length < length then
          match valid_chain chain with
          | none => none
          | some true => resolveLoop rest length (some chain)
          | some false => resolveLoop rest max_length new_chain
        else resolveLoop rest max_length new_chain
      else resolveLoop rest max_length new_chain

/-- `resolve_conflicts()`, given the batch of peer responses (one per
registered node).  `max_length` starts at `len(self.chain)`; the final
`if new_chain:` is Python truthiness, so `None` and the empty list are both
rejected; `self.chain` is only assigned after the loop, so an exception
leaves the state untouched. -/
def resolve_conflicts (s : State) (responses : List PeerResponse) :
    State × Outcome :=
  match resolveLoop responses (s.chain.length : Int) none with
  | none => (s, .exn)
  | some (_, none) => (s, .ok false)
  | some (_, some c) =>
      if c.isEmpty then (s, .ok false) else ({ s with chain := c }, .ok true)

/-- The `/mine` route: read the last block's proof, run `proof_of_work`,
append the reward transaction `("0", node_identifier, 1)`, then seal with
`new_block(proof)` (the loop terminates exactly when a valid proof exists,
hence the hypothesis). -/
def mine (s : State) (node_identifier : String) (t : Int) (lb : Block)
    (_hlb : s.chain.getLast? = some lb)
    (hp : ∃ p : Nat, valid_proof lb.proof p = true) : State :=
  let proof := proof_of_work lb.proof hp
  let s1 := (new_transaction s "0" node_identifier 1).1
  match new_block s1 (proof : Int) none t with
  | some (s2, _) => s2
  | none => s1

/-- One public operation.  When `allowRaw` is `true` the raw
`new_block(proof, previous_hash)` method with caller-chosen arguments is an
operation of its own; when `false`, `new_block` only happens inside `mine`
(as in the HTTP routes).  `resolve` consumes one fetched response per
registered node. -/
inductive StepVia : Bool → State → State → Prop where
  | newTransaction (allowRaw : Bool) (s : State) (sender recipient : String)
      (amount : Int) :
      StepVia allowRaw s (new_transaction s sender recipient amount).1
  | newBlock (s : State) (proof : Int) (previous_hash : Option String)
      (t : Int) (s' : State) (b : Block)
      (h : new_block s proof previous_hash t = some (s', b)) :
      StepVia true s s'
  | registerNode (allowRaw : Bool) (s : State) (netloc : String) :
      StepVia allowRaw s (register_node s netloc)
  | mineOp (allowRaw : Bool) (s : State) (node_identifier : String) (t : Int)
      (lb : Block) (hlb : s.chain.getLast? = some lb)
      (hp : ∃ p : Nat, valid_proof lb.proof p = true) :
      StepVia allowRaw s (mine s node_identifier t lb hlb hp)
  | resolveOp (allowRaw : Bool) (s : State) (responses : List PeerResponse)
      (hn : responses.length = s.nodes.length) :
      StepVia allowRaw s (resolve_conflicts s responses).1

/-- Reachability by the public operations, raw `new_block` included. -/
def Reachable (s : State) : Prop :=
  ∃ t : Int, Relation.ReflTransGen (StepVia true) (init t) s

/-- Reachability by the HTTP-route operations only (`new_block` happens
only inside `mine` and `__init__`). -/
def ReachableRoutes (s : State) : Prop :=
  ∃ t : Int, Relation.ReflTransGen (StepVia false) (init t) s

/-- The chain invariant of the spec: every non-genesis block hash-links to
its predecessor and carries a valid proof of work relative to it. -/
def ChainInv (chain : List Block) : Prop :=
  ∀ i : Nat, (h : i + 1 < chain.length) →
    (chain.get ⟨i + 1, h⟩).previous_hash =
        hashBlock (chain.get ⟨i, Nat.lt_of_succ_lt h⟩) ∧
      valid_proof (chain.get ⟨i, Nat.lt_of_succ_lt h⟩).proof
        (chain.get ⟨i + 1, h⟩).proof = true

/-- A chain whose first block has non-sentinel linkage values (`previous_hash
= "zzz"`, `proof = 77`) and whose second block's `index` field is `999`:
both hash link and proof check hold, so only the fields `valid_chain` never
reads distinguish it from a well-formed chain. -/
def oddGenesis : Block := ⟨1, 0, [], 77, "zzz"⟩

def oddBlock : Block :=
  ⟨999, 0, [], 16703,
   "8a1d929d023407f979a2075e70309c9841caa0555ba59a472f8eefb5f2bd7b3e"⟩

def oddChain : List Block := [oddGenesis, oddBlock]

end Blockchain

namespace Blockchain

/-- The per-link condition checked by `valid_chain`'s loop. -/
def LinkB (a b : Block) : Prop :=
  b.previous_hash = hashBlock a ∧ valid_proof a.proof b.proof = true

end Blockchain

namespace Blockchain

mutual

/-- Canonical form of a JSON value: recursively sort every object's fields
by key.  Two dicts holding the same fields in different insertion orders
have the same canonical form. -/
def nf : Json → Json
  | .num n => .num n
  | .str s => .str s
  | .arr xs => .arr (nfL xs)
  | .obj kvs => .obj (List.insertionSort keyLe (nfP kvs))
  termination_by structural j => j

def nfL : List Json → List Json
  | [] => []
  | x :: xs => nf x :: nfL xs
  termination_by structural l => l

def nfP : List (String × Json) → List (String × Json)
  | [] => []
  | (k, v) :: kvs => (k, nf v) :: nfP kvs
  termination_by structural l => l

end

mutual

/-- Every object in the tree has pairwise-distinct keys — always true of
values arising from Python dicts, which cannot hold duplicate keys. -/
def wfKeys : Json → Bool
  | .num _ => true
  | .str _ => true
  | .arr xs => wfKeysL xs
  | .obj kvs => decide ((kvs.map Prod.fst).Nodup) && wfKeysP kvs
  termination_by structural j => j

def wfKeysL : List Json → Bool
  | [] => true
  | x :: xs => wfKeys x && wfKeysL xs
  termination_by structural l => l

def wfKeysP : List (String × Json) → Bool
  | [] => true
  | (_, v) :: kvs => wfKeys v && wfKeysP kvs
  termination_by structural l => l

end

mutual

/-- Size measure for strong induction over JSON trees. -/
def jsize : Json → Nat
  | .num _ => 1
  | .str _ => 1
  | .arr xs => jsizeL xs + 1
  | .obj kvs => jsizeP kvs + 1
  termination_by structural j => j

def jsizeL : List Json → Nat
  | [] => 0
  | x :: xs => jsize x + jsizeL xs + 1
  termination_by structural l => l

def jsizeP : List (String × Json) → Nat
  | [] => 0
  | (_, v) :: kvs => jsize v + jsizeP kvs + 1
  termination_by structural l => l

end

/-- The state reached from startup by calling the raw
`new_block(proof=0, previous_hash='x')` directly. -/
def rawBlockState : State :=
  match new_block (init 0) 0 (some "x") 0 with
  | some (s, _) => s
  | none => init 0

/-- The state reached by registering a peer and resolving against it when
it reports length 5 for `oddChain`. -/
def adoptedState : State :=
  (resolve_conflicts (register_node (init 0) "peer:5000")
    [.ok 200 5 oddChain]).1

/-- A block dict with nested fields, built in one insertion order… -/
def jA : Json :=
  .obj [("proof", .num 7),
        ("extra", .obj [("b", .num 2), ("a", .arr [.str "s", .num 1])])]

/-- …and the same fields built in the opposite insertion order at both
levels. -/
def jB : Json :=
  .obj [("extra", .obj [("a", .arr [.str "s", .num 1]), ("b", .num 2)]),
        ("proof", .num 7)]

end Blockchain

example :
    SHA256.hexdigest (SHA256.utf8 "abc".data) =
      "ba7816bf8f01cfea414140de5dae2223b00361a396177a9cb410ff61f20015ad".data := by
  decide

example :
    SHA256.hexdigest (SHA256.utf8 "".data) =
      "e3b0c44298fc1c149afbf4c8996fb92427ae41e4649b934ca495991b7852b855".data := by
  decide

example :
    SHA256.hexdigest
        (SHA256.utf8
          "abcdbcdecdefdefgefghfghighijhijkijkljklmklmnlmnomnopnopq".data) =
      "248d6a61d20638b8e5c026930c3e6039a33ce45964ff2167f6ecedd419db06c1".data := by
  decide

example :
    SHA256.hexdigest (SHA256.utf8 (List.replicate 63 'a')) =
      "7d3e74a05d7db15bce4ad9ec0658ea98e3f06eeecf16b4c6fff2da457ddc2f34".data := by
  decide

example : Blockchain.valid_proof 100 35293 = true := by decide

example : Blockchain.valid_proof 77 16703 = true := by decide

example : Blockchain.valid_proof 100 0 = false := by decide

example :
    Blockchain.hashBlock ⟨1, 0, [], 100, "1"⟩ =
      "1eea62564c3792c0931dedc88a415bce77a46bedac09fed270a7f8accef22b10" := by
  decide

example :
    Blockchain.hashBlock ⟨2, 5, [⟨"A", "B", 10⟩], 3, "x"⟩ =
      "332c50dbd2211fd24fc14898a66fe2424169ae211ed745b1bb2daa5426ea37d1" := by
  decide

example : Blockchain.valid_chain Blockchain.oddChain = some true := by decide

example : (Blockchain.init 0).chain = [⟨1, 0, [], 100, "1"⟩] := by decide

example : Blockchain.nf Blockchain.jA = Blockchain.nf Blockchain.jB := rfl

example : Blockchain.wfKeys Blockchain.jA = true := by decide

example :
    Blockchain.hash Blockchain.jA = Blockchain.hash Blockchain.jB := rfl

namespace Blockchain

lemma validWalk_iff_chain' (a : Block) (l : List Block) :
    validWalk a l = true ↔ List.Chain' LinkB (a :: l) := by
  induction l generalizing a with
  | nil => simp [validWalk]
  | cons b rest ih =>
      rw [List.chain'_cons]
      by_cases h1 : b.previous_hash = hashBlock a
      · by_cases h2 : valid_proof a.proof b.proof = true
        · simp [validWalk, h1, h2, ih, LinkB]
        · simp only [Bool.not_eq_true] at h2
          simp [validWalk, h1, h2, LinkB]
      · simp [validWalk, h1, LinkB]

lemma chainInv_iff_chain' (c : List Block) :
    ChainInv c ↔ List.Chain' LinkB c := by
  rw [List.chain'_iff_get]
  constructor
  · intro h i hi
    exact h i (by omega)
  · intro h i hi
    exact h i (by omega)

lemma valid_chain_iff_chainInv (c : List Block) (hc : c ≠ []) :
    valid_chain c = some true ↔ ChainInv c := by
  match c with
  | [] => exact absurd rfl hc
  | b :: rest =>
      rw [chainInv_iff_chain', ← validWalk_iff_chain']
      simp [valid_chain]

lemma chainInv_singleton (b : Block) : ChainInv [b] := by
  rw [chainInv_iff_chain']
  exact List.chain'_singleton b

lemma chainInv_append (c : List Block) (b lb : Block)
    (hlast : c.getLast? = some lb) (hinv : ChainInv c)
    (hph : b.previous_hash = hashBlock lb)
    (hvp : valid_proof lb.proof b.proof = true) : ChainInv (c ++ [b]) := by
  rw [chainInv_iff_chain'] at hinv ⊢
  refine hinv.append (List.chain'_singleton b) ?_
  intro x hx y hy
  rw [hlast, Option.mem_def, Option.some_inj] at hx
  simp only [List.head?, Option.mem_def, Option.some_inj] at hy
  subst hx; subst hy
  exact ⟨hph, hvp⟩

end Blockchain

namespace Blockchain

lemma resolveLoop_ok_spec :
    ∀ (rs : List PeerResponse) (m₀ : Int) (b₀ : Option (List Block))
      (m₁ : Int) (b₁ : Option (List Block)),
      resolveLoop rs m₀ b₀ = some (m₁, b₁) →
      m₀ ≤ m₁ ∧
      ((b₁ = b₀ ∧ m₁ = m₀) ∨
        ∃ len c, PeerResponse.ok 200 len c ∈ rs ∧ b₁ = some c ∧ m₁ = len ∧
          m₀ < len ∧ valid_chain c = some true) ∧
      ∀ len c, PeerResponse.ok 200 len c ∈ rs → valid_chain c = some true →
        len ≤ m₁ := by
  intro rs
  induction rs with
  | nil =>
      intro m₀ b₀ m₁ b₁ h
      simp only [resolveLoop, Option.some_inj, Prod.mk.injEq] at h
      obtain ⟨h1, h2⟩ := h
      subst h1; subst h2
      exact ⟨le_refl _, Or.inl ⟨rfl, rfl⟩, by intro len c hmem; simp at hmem⟩
  | cons r rest ih =>
      intro m₀ b₀ m₁ b₁ h
      cases r with
      | raise => simp [resolveLoop] at h
      | ok st len c =>
          by_cases hst : st = 200
          · subst hst
            rw [resolveLoop, if_pos rfl] at h
            by_cases hlen : m₀ < len
            · rw [if_pos hlen] at h
              rcases hvc : valid_chain c with _ | fl
              · rw [hvc] at h; simp at h
              · rw [hvc] at h
                cases fl with
                | false =>
                    obtain ⟨hle, hor, hall⟩ := ih m₀ b₀ m₁ b₁ h
                    refine ⟨hle, ?_, ?_⟩
                    · rcases hor with hl | ⟨len', c', hmem', rest'⟩
                      · exact Or.inl hl
                      · exact Or.inr ⟨len', c', List.mem_cons_of_mem _ hmem',
                          rest'⟩
                    · intro len' c' hmem' hvc'
                      rcases List.mem_cons.1 hmem' with hhd | htl
                      · obtain ⟨rfl, rfl⟩ :
                            len' = len ∧ c' = c := by
                          injection hhd with h1 h2 h3
                          exact ⟨h2, h3⟩
                        rw [hvc] at hvc'
                        simp at hvc'
                      · exact hall len' c' htl hvc'
                | true =>
                    obtain ⟨hle, hor, hall⟩ := ih len (some c) m₁ b₁ h
                    refine ⟨le_of_lt (lt_of_lt_of_le hlen hle), ?_, ?_⟩
                    · rcases hor with ⟨hb, hm⟩ | ⟨len', c', hmem', hb', hm', hlt', hvc'⟩
                      · exact Or.inr ⟨len, c, List.mem_cons_self _ _, hb, hm,
                          hlen, hvc⟩
                      · exact Or.inr ⟨len', c', List.mem_cons_of_mem _ hmem',
                          hb', hm', lt_trans hlen hlt', hvc'⟩
                    · intro len' c' hmem' hvc'
                      rcases List.mem_cons.1 hmem' with hhd | htl
                      · obtain ⟨rfl, rfl⟩ :
                            len' = len ∧ c' = c := by
                          injection hhd with h1 h2 h3
                          exact ⟨h2, h3⟩
                        exact hle
                      · exact hall len' c' htl hvc'
            · rw [if_neg hlen] at h
              obtain ⟨hle, hor, hall⟩ := ih m₀ b₀ m₁ b₁ h
              refine ⟨hle, ?_, ?_⟩
              · rcases hor with hl | ⟨len', c', hmem', rest'⟩
                · exact Or.inl hl
                · exact Or.inr ⟨len', c', List.mem_cons_of_mem _ hmem', rest'⟩
              · intro len' c' hmem' hvc'
                rcases List.mem_cons.1 hmem' with hhd | htl
                · obtain ⟨rfl, rfl⟩ : len' = len ∧ c' = c := by
                    injection hhd with h1 h2 h3
                    exact ⟨h2, h3⟩
                  omega
                · exact hall len' c' htl hvc'
          · rw [resolveLoop, if_neg hst] at h
            obtain ⟨hle, hor, hall⟩ := ih m₀ b₀ m₁ b₁ h
            refine ⟨hle, ?_, ?_⟩
            · rcases hor with hl | ⟨len', c', hmem', rest'⟩
              · exact Or.inl hl
              · exact Or.inr ⟨len', c', List.mem_cons_of_mem _ hmem', rest'⟩
            · intro len' c' hmem' hvc'
              rcases List.mem_cons.1 hmem' with hhd | htl
              · exfalso
                injection hhd with h1 h2 h3
                exact hst h1.symm
              · exact hall len' c' htl hvc'

lemma resolve_conflicts_cases (s : State) (rs : List PeerResponse) :
    ((resolve_conflicts s rs).2 ≠ .ok true → (resolve_conflicts s rs).1 = s) ∧
    ((resolve_conflicts s rs).2 = .ok true →
      ∃ len c, PeerResponse.ok 200 len c ∈ rs ∧
        (resolve_conflicts s rs).1 = { s with chain := c } ∧
        valid_chain c = some true ∧ (s.chain.length : Int) < len ∧ c ≠ [] ∧
        ∀ len' c', PeerResponse.ok 200 len' c' ∈ rs →
          valid_chain c' = some true → len' ≤ len) := by
  rcases hloop : resolveLoop rs (s.chain.length : Int) none with _ | ⟨m, b⟩
  · refine ⟨fun _ => by simp [resolve_conflicts, hloop], fun habs => ?_⟩
    simp [resolve_conflicts, hloop] at habs
  · rcases b with _ | c
    · refine ⟨fun _ => by simp [resolve_conflicts, hloop], fun habs => ?_⟩
      simp [resolve_conflicts, hloop] at habs
    · by_cases hce : c.isEmpty
      · refine ⟨fun _ => by simp [resolve_conflicts, hloop, hce], fun habs => ?_⟩
        simp [resolve_conflicts, hloop, hce] at habs
      · obtain ⟨hle, hor, hall⟩ :=
          resolveLoop_ok_spec rs (s.chain.length : Int) none m (some c) hloop
        rcases hor with ⟨hb, _⟩ | ⟨len, cc, hmem, hb, hm, hlt, hvc⟩
        · simp at hb
        · obtain rfl : cc = c := by
            injection hb with h1
            exact h1.symm
          refine ⟨fun habs => absurd ?_ habs, fun _ => ?_⟩
          · simp [resolve_conflicts, hloop, hce]
          · refine ⟨len, cc, hmem, ?_, hvc, hlt, ?_, ?_⟩
            · simp [resolve_conflicts, hloop, hce]
            · intro hnil
              rw [hnil] at hce
              simp at hce
            · intro len' c'' hmem' hvc'
              have := hall len' c'' hmem' hvc'
              omega

end Blockchain

namespace Blockchain

lemma new_block_none_spec (s : State) (p t : Int) (lb : Block)
    (hlb : s.chain.getLast? = some lb) :
    new_block s p none t =
      some ({ s with
                current_transactions := [],
                chain := s.chain ++
                  [⟨(s.chain.length : Int) + 1, t, s.current_transactions, p,
                    hashBlock lb⟩] },
        ⟨(s.chain.length : Int) + 1, t, s.current_transactions, p,
          hashBlock lb⟩) := by
  simp [new_block, hlb]

lemma new_block_some_spec (s : State) (p t : Int) (ph : String)
    (hph : ph ≠ "") :
    new_block s p (some ph) t =
      some ({ s with
                current_transactions := [],
                chain := s.chain ++
                  [⟨(s.chain.length : Int) + 1, t, s.current_transactions, p,
                    ph⟩] },
        ⟨(s.chain.length : Int) + 1, t, s.current_transactions, p, ph⟩) := by
  simp [new_block, hph]

lemma mine_eq (s : State) (nid : String) (t : Int) (lb : Block)
    (hlb : s.chain.getLast? = some lb)
    (hp : ∃ p : Nat, valid_proof lb.proof p = true) :
    mine s nid t lb hlb hp =
      { s with
          current_transactions := [],
          chain := s.chain ++
            [⟨(s.chain.length : Int) + 1, t,
              s.current_transactions ++ [⟨"0", nid, 1⟩],
              ((proof_of_work lb.proof hp : Nat) : Int), hashBlock lb⟩] } := by
  have h1 : ((new_transaction s "0" nid 1).1).chain.getLast? = some lb := hlb
  unfold mine
  dsimp only
  rw [new_block_none_spec ((new_transaction s "0" nid 1).1) _ t lb h1]
  rfl

lemma new_transaction_chain (s : State) (a b : String) (am : Int) :
    (new_transaction s a b am).1.chain = s.chain := rfl

lemma register_node_chain (s : State) (n : String) :
    (register_node s n).chain = s.chain := rfl

lemma init_chain (t : Int) : (init t).chain = [⟨1, t, [], 100, "1"⟩] := rfl

lemma chainInv_mine (s : State) (nid : String) (t : Int) (lb : Block)
    (hlb : s.chain.getLast? = some lb)
    (hp : ∃ p : Nat, valid_proof lb.proof p = true)
    (hinv : ChainInv s.chain) : ChainInv (mine s nid t lb hlb hp).chain := by
  rw [mine_eq]
  exact chainInv_append s.chain _ lb hlb hinv rfl (Nat.find_spec hp)

lemma chainInv_resolve (s : State) (rs : List PeerResponse)
    (hinv : ChainInv s.chain) :
    ChainInv (resolve_conflicts s rs).1.chain := by
  obtain ⟨hno, hyes⟩ := resolve_conflicts_cases s rs
  by_cases h : (resolve_conflicts s rs).2 = .ok true
  · obtain ⟨len, c, _, heq, hvc, _, hne, _⟩ := hyes h
    rw [heq]
    exact (valid_chain_iff_chainInv c hne).1 hvc
  · rw [hno h]; exact hinv

lemma chainInv_of_stepsRoutes (s s' : State)
    (hsteps : Relation.ReflTransGen (StepVia false) s s')
    (hinv : ChainInv s.chain) : ChainInv s'.chain := by
  induction hsteps with
  | refl => exact hinv
  | tail hab hbc ih =>
      cases hbc with
      | newTransaction => rw [new_transaction_chain]; exact ih
      | registerNode => rw [register_node_chain]; exact ih
      | mineOp => exact chainInv_mine _ _ _ _ _ _ ih
      | resolveOp => exact chainInv_resolve _ _ ih

end Blockchain

namespace Blockchain

lemma lexLe_total : ∀ a b : List Char, lexLe a b = true ∨ lexLe b a = true := by
  intro a
  induction a with
  | nil => intro b; exact Or.inl rfl
  | cons x xs ih =>
      intro b
      cases b with
      | nil => exact Or.inr rfl
      | cons y ys =>
          simp only [lexLe]
          rcases Nat.lt_trichotomy x.toNat y.toNat with h | h | h
          · left; simp [h]
          · have h1 : ¬ x.toNat < y.toNat := by omega
            have h2 : ¬ y.toNat < x.toNat := by omega
            rcases ih ys with hl | hr
            · left; simp [h1, h2, hl]
            · right; simp [h1, h2, hr]
          · right; simp [h]

lemma lexLe_trans :
    ∀ a b c : List Char, lexLe a b = true → lexLe b c = true →
      lexLe a c = true := by
  intro a
  induction a with
  | nil => intro b c _ _; rfl
  | cons x xs ih =>
      intro b c hab hbc
      cases b with
      | nil => simp [lexLe] at hab
      | cons y ys =>
          cases c with
          | nil => simp [lexLe] at hbc
          | cons z zs =>
              simp only [lexLe] at hab hbc ⊢
              rcases Nat.lt_trichotomy x.toNat y.toNat with h1 | h1 | h1
              · rcases Nat.lt_trichotomy y.toNat z.toNat with h2 | h2 | h2
                · simp [show x.toNat < z.toNat by omega]
                · simp [show x.toNat < z.toNat by omega]
                · rw [if_neg (by omega), if_pos h2] at hbc
                  exact absurd hbc (by simp)
              · rcases Nat.lt_trichotomy y.toNat z.toNat with h2 | h2 | h2
                · simp [show x.toNat < z.toNat by omega]
                · have g1 : ¬ x.toNat < y.toNat := by omega
                  have g2 : ¬ y.toNat < x.toNat := by omega
                  have g3 : ¬ y.toNat < z.toNat := by omega
                  have g4 : ¬ z.toNat < y.toNat := by omega
                  have g5 : ¬ x.toNat < z.toNat := by omega
                  have g6 : ¬ z.toNat < x.toNat := by omega
                  rw [if_neg g1, if_neg g2] at hab
                  rw [if_neg g3, if_neg g4] at hbc
                  rw [if_neg g5, if_neg g6]
                  exact ih ys zs hab hbc
                · rw [if_neg (by omega), if_pos h2] at hbc
                  exact absurd hbc (by simp)
              · rw [if_neg (by omega), if_pos h1] at hab
                exact absurd hab (by simp)

lemma lexLe_antisymm :
    ∀ a b : List Char, lexLe a b = true → lexLe b a = true → a = b := by
  intro a
  induction a with
  | nil =>
      intro b _ hba
      cases b with
      | nil => rfl
      | cons y ys => simp [lexLe] at hba
  | cons x xs ih =>
      intro b hab hba
      cases b with
      | nil => simp [lexLe] at hab
      | cons y ys =>
          simp only [lexLe] at hab hba
          rcases Nat.lt_trichotomy x.toNat y.toNat with h | h | h
          · rw [if_neg (by omega), if_pos h] at hba
            exact absurd hba (by simp)
          · rw [if_neg (by omega), if_neg (by omega)] at hab
            rw [if_neg (by omega), if_neg (by omega)] at hba
            have hxy : x = y := Char.eq_of_val_eq (UInt32.ext h)
            rw [hxy, ih ys hab hba]
          · rw [if_neg (by omega), if_pos h] at hab
            exact absurd hab (by simp)

end Blockchain

namespace Blockchain

instance keyLe_total {α : Type} : IsTotal (String × α) keyLe :=
  ⟨fun p q => lexLe_total p.1.data q.1.data⟩

instance keyLe_trans {α : Type} : IsTrans (String × α) keyLe :=
  ⟨fun p q r => lexLe_trans p.1.data q.1.data r.1.data⟩

lemma sorted_perm_nodup_keys_eq {α : Type} :
    ∀ l₁ l₂ : List (String × α), l₁.Perm l₂ → l₁.Sorted keyLe →
      l₂.Sorted keyLe → (l₁.map Prod.fst).Nodup → l₁ = l₂ := by
  intro l₁
  induction l₁ with
  | nil =>
      intro l₂ hp _ _ _
      exact (hp.symm.eq_nil).symm
  | cons a l ih =>
      intro l₂ hp hs1 hs2 hnd
      cases l₂ with
      | nil => exact absurd hp.eq_nil (List.cons_ne_nil a l)
      | cons b l₂' =>
          have hab : a = b := by
            have hbmem : b ∈ a :: l :=
              hp.mem_iff.2 (List.mem_cons_self b l₂')
            rcases List.mem_cons.1 hbmem with hh | hbl
            · exact hh.symm
            · have hamem : a ∈ b :: l₂' :=
                hp.mem_iff.1 (List.mem_cons_self a l)
              rcases List.mem_cons.1 hamem with hh | hal
              · exact hh
              · have h1 : keyLe a b := List.rel_of_sorted_cons hs1 b hbl
                have h2 : keyLe b a := List.rel_of_sorted_cons hs2 a hal
                have hkey : a.1 = b.1 :=
                  String.ext (lexLe_antisymm a.1.data b.1.data h1 h2)
                exfalso
                rw [List.map_cons] at hnd
                exact (List.nodup_cons.1 hnd).1
                  (List.mem_map.2 ⟨b, hbl, hkey.symm⟩)
          subst hab
          have hp' : l.Perm l₂' := hp.cons_inv
          rw [List.map_cons] at hnd
          rw [ih l₂' hp' hs1.of_cons hs2.of_cons (List.nodup_cons.1 hnd).2]

lemma insertionSort_perm_eq {α : Type} (l₁ l₂ : List (String × α))
    (hp : l₁.Perm l₂) (hnd : (l₁.map Prod.fst).Nodup) :
    List.insertionSort keyLe l₁ = List.insertionSort keyLe l₂ := by
  refine sorted_perm_nodup_keys_eq _ _ ?_ ?_ ?_ ?_
  · exact (List.perm_insertionSort keyLe l₁).trans
      (hp.trans (List.perm_insertionSort keyLe l₂).symm)
  · exact List.sorted_insertionSort keyLe l₁
  · exact List.sorted_insertionSort keyLe l₂
  · exact (((List.perm_insertionSort keyLe l₁).map Prod.fst).nodup_iff).2 hnd

lemma renderPairs_eq_map :
    ∀ l : List (String × Json),
      renderPairs l = l.map fun kv => (kv.1, render kv.2) := by
  intro l
  induction l with
  | nil => rfl
  | cons p ps ih =>
      obtain ⟨k, v⟩ := p
      rw [renderPairs, List.map_cons, ih]

lemma nfP_keys :
    ∀ kvs : List (String × Json), (nfP kvs).map Prod.fst = kvs.map Prod.fst := by
  intro kvs
  induction kvs with
  | nil => rfl
  | cons p ps ih =>
      obtain ⟨k, v⟩ := p
      rw [nfP, List.map_cons, List.map_cons, ih]

lemma jsize_pos : ∀ j : Json, 1 ≤ jsize j := by
  intro j
  cases j <;> simp [jsize]

lemma jsize_le_of_mem_L :
    ∀ (xs : List Json) (x : Json), x ∈ xs → jsize x ≤ jsizeL xs := by
  intro xs
  induction xs with
  | nil => intro x hx; simp at hx
  | cons y ys ih =>
      intro x hx
      rw [jsizeL]
      rcases List.mem_cons.1 hx with rfl | hx'
      · omega
      · have := ih x hx'
        omega

lemma jsize_le_of_mem_P :
    ∀ (kvs : List (String × Json)) (k : String) (v : Json),
      (k, v) ∈ kvs → jsize v ≤ jsizeP kvs := by
  intro kvs
  induction kvs with
  | nil => intro k v hx; simp at hx
  | cons p ps ih =>
      intro k v hx
      obtain ⟨k', v'⟩ := p
      rw [jsizeP]
      rcases List.mem_cons.1 hx with hh | hx'
      · injection hh with h1 h2
        subst h2
        omega
      · have := ih k v hx'
        omega

lemma wfKeysL_mem :
    ∀ xs : List Json, wfKeysL xs = true → ∀ x ∈ xs, wfKeys x = true := by
  intro xs
  induction xs with
  | nil => intro _ x hx; simp at hx
  | cons y ys ih =>
      intro h x hx
      rw [wfKeysL, Bool.and_eq_true] at h
      rcases List.mem_cons.1 hx with rfl | hx'
      · exact h.1
      · exact ih h.2 x hx'

lemma wfKeysP_mem :
    ∀ kvs : List (String × Json), wfKeysP kvs = true →
      ∀ (k : String) (v : Json), (k, v) ∈ kvs → wfKeys v = true := by
  intro kvs
  induction kvs with
  | nil => intro _ k v hx; simp at hx
  | cons p ps ih =>
      intro h k v hx
      obtain ⟨k', v'⟩ := p
      rw [wfKeysP, Bool.and_eq_true] at h
      rcases List.mem_cons.1 hx with hh | hx'
      · injection hh with h1 h2
        subst h2
        exact h.1
      · exact ih h.2 k v hx'

end Blockchain

namespace Blockchain

lemma render_nf :
    ∀ (n : Nat) (j : Json), jsize j ≤ n → wfKeys j = true →
      render (nf j) = render j := by
  intro n
  induction n with
  | zero =>
      intro j hj _
      have := jsize_pos j
      omega
  | succ n ih =>
      intro j hj hwf
      cases j with
      | num m => rfl
      | str s => rfl
      | arr xs =>
          rw [nf]
          simp only [render]
          have hsz : jsizeL xs ≤ n := by rw [jsize] at hj; omega
          rw [wfKeys] at hwf
          have key : ∀ ys : List Json, jsizeL ys ≤ n → wfKeysL ys = true →
              renderArr (nfL ys) = renderArr ys := by
            intro ys
            induction ys with
            | nil => intro _ _; rfl
            | cons y ys' ihy =>
                intro hsz' hwf'
                rw [wfKeysL, Bool.and_eq_true] at hwf'
                rw [jsizeL] at hsz'
                rw [nfL]
                simp only [renderArr]
                rw [ih y (by omega) hwf'.1, ihy (by omega) hwf'.2]
          rw [key xs hsz hwf]
      | obj kvs =>
          rw [nf]
          simp only [render]
          have hsz : jsizeP kvs ≤ n := by rw [jsize] at hj; omega
          rw [wfKeys, Bool.and_eq_true] at hwf
          have hnd : (kvs.map Prod.fst).Nodup := of_decide_eq_true hwf.1
          have h2 : renderPairs (nfP kvs) = renderPairs kvs := by
            have inner : ∀ pvs : List (String × Json), jsizeP pvs ≤ n →
                wfKeysP pvs = true →
                renderPairs (nfP pvs) = renderPairs pvs := by
              intro pvs
              induction pvs with
              | nil => intro _ _; rfl
              | cons p ps ihp =>
                  intro hsz' hwf'
                  obtain ⟨k, v⟩ := p
                  rw [wfKeysP, Bool.and_eq_true] at hwf'
                  rw [jsizeP] at hsz'
                  rw [nfP]
                  simp only [renderPairs]
                  rw [ih v (by omega) hwf'.1, ihp (by omega) hwf'.2]
            exact inner kvs hsz hwf.2
          have h1 :
              List.insertionSort keyLe
                  (renderPairs (List.insertionSort keyLe (nfP kvs))) =
                List.insertionSort keyLe (renderPairs (nfP kvs)) := by
            refine insertionSort_perm_eq _ _ ?_ ?_
            · rw [renderPairs_eq_map, renderPairs_eq_map]
              exact (List.perm_insertionSort keyLe (nfP kvs)).map _
            · rw [renderPairs_eq_map, List.map_map]
              have hcomp :
                  (Prod.fst ∘ fun kv : String × Json => (kv.1, render kv.2)) =
                    (Prod.fst : String × Json → String) := rfl
              rw [hcomp]
              have hp : ((List.insertionSort keyLe (nfP kvs)).map
                  Prod.fst).Perm ((nfP kvs).map Prod.fst) :=
                (List.perm_insertionSort keyLe (nfP kvs)).map Prod.fst
              rw [nfP_keys] at hp
              exact hp.nodup_iff.2 hnd
          rw [h1, h2]

end Blockchain

namespace Blockchain

/-- C1: `valid_proof(last_proof, proof)` returns true exactly when the
SHA-256 hex digest of the concatenated decimal strings of the two integers
has `"0000"` as its first four characters; and whenever any non-negative
integer satisfies the predicate, `proof_of_work(last_proof)` returns a
satisfying value that is the smallest non-negative one (the search starts
at 0 and increments by 1). -/
theorem valid_proof_iff_and_pow_minimal (lp p : Int)
    (h : ∃ n : Nat, valid_proof lp (n : Int) = true) :
    (valid_proof lp p = true ↔
      (SHA256.hexdigest
          (SHA256.utf8 (toString lp ++ toString p).data)).take 4 =
        ['0', '0', '0', '0'])
    ∧ valid_proof lp ((proof_of_work lp h : Nat) : Int) = true
    ∧ ∀ m : Nat, m < proof_of_work lp h → valid_proof lp (m : Int) = false := by
  refine ⟨?_, Nat.find_spec h, ?_⟩
  · simp [valid_proof]
  · intro m hm
    have := Nat.find_min h hm
    simpa using this

/-- C1 witness: `last_proof = 100` has the valid proof 35293, and the theorem
applies there. -/
theorem valid_proof_iff_and_pow_minimal_app :
    (∃ n : Nat, valid_proof (100 : Int) (n : Int) = true) ∧
      (valid_proof (100 : Int) 35293 = true ↔
        (SHA256.hexdigest
            (SHA256.utf8
              (toString (100 : Int) ++ toString (35293 : Int)).data)).take 4 =
          ['0', '0', '0', '0']) :=
  ⟨⟨35293, by decide⟩,
   (valid_proof_iff_and_pow_minimal 100 35293 ⟨35293, by decide⟩).1⟩

/-- C4 counterexample: on the empty candidate chain, `valid_chain` does not
return true — `chain[0]` raises `IndexError` (modelled as `none`). -/
theorem valid_chain_empty_not_true :
    valid_chain ([] : List Block) = none ∧
      valid_chain ([] : List Block) ≠ some true :=
  ⟨rfl, by decide⟩

/-- C4 amended: a single-block candidate chain is always valid (the
genesis-only chain in particular), but the empty chain makes `valid_chain`
raise `IndexError` rather than return true. -/
theorem valid_chain_small_chains :
    valid_chain ([] : List Block) = none ∧
      ∀ b : Block, valid_chain [b] = some true :=
  ⟨rfl, fun _ => rfl⟩

/-- C10 counterexample: the empty chain satisfies the link-and-proof
invariant vacuously, yet `valid_chain` does not return true on it (it
raises `IndexError`). -/
theorem empty_chain_inv_not_valid :
    ChainInv ([] : List Block) ∧ valid_chain ([] : List Block) ≠ some true := by
  refine ⟨?_, by decide⟩
  intro i h
  simp at h

/-- C10 amended: on NON-EMPTY chains, `valid_chain` checks nothing but the
consecutive hash links and proofs: any such chain validates even though its
first block has non-sentinel `previous_hash`/`proof` and its second block's
`index` is 999; and `resolve_conflicts` adopts exactly such a chain. -/
theorem valid_chain_ignores_genesis_and_index :
    (∀ c : List Block, c ≠ [] → ChainInv c → valid_chain c = some true)
    ∧ valid_chain oddChain = some true
    ∧ oddGenesis.previous_hash ≠ "1" ∧ oddGenesis.proof ≠ 100
    ∧ oddBlock.index ≠ (2 : Int)
    ∧ (resolve_conflicts (register_node (init 0) "peer:5000")
        [.ok 200 5 oddChain]).1.chain = oddChain
    ∧ (resolve_conflicts (register_node (init 0) "peer:5000")
        [.ok 200 5 oddChain]).2 = .ok true := by
  refine ⟨?_, by decide, by decide, by decide, by decide, by decide, by decide⟩
  intro c hc hinv
  exact (valid_chain_iff_chainInv c hc).2 hinv

/-- C10 witness: the theorem applied to the concrete `oddChain`. -/
theorem valid_chain_ignores_genesis_and_index_app :
    oddChain ≠ [] ∧ ChainInv oddChain ∧ valid_chain oddChain = some true := by
  have h1 : oddChain ≠ [] := by decide
  have h2 : ChainInv oddChain :=
    (valid_chain_iff_chainInv oddChain h1).1 (by decide)
  exact ⟨h1, h2, valid_chain_ignores_genesis_and_index.1 oddChain h1 h2⟩

/-- C9: `hash(block)` is a pure, deterministic function of the block's
field values: any two JSON dicts with the same fields (in the sense of the
recursive canonical form `nf`, which forgets insertion order), all with
duplicate-free keys as Python dicts are, hash to the identical digest; and
hashing the same value twice gives identical digests. -/
theorem hash_canonical_deterministic :
    (∀ a b : Json, wfKeys a = true → wfKeys b = true → nf a = nf b →
      hash a = hash b)
    ∧ ∀ a : Json, hash a = hash a := by
  refine ⟨?_, fun a => rfl⟩
  intro a b ha hb hnf
  have h1 := render_nf (jsize a) a (le_refl _) ha
  have h2 := render_nf (jsize b) b (le_refl _) hb
  show (⟨SHA256.hexdigest (SHA256.utf8 (render a))⟩ : String) =
    ⟨SHA256.hexdigest (SHA256.utf8 (render b))⟩
  rw [← h1, hnf, h2]

/-- C9 witness: the same nested fields inserted in opposite orders hash
identically. -/
theorem hash_canonical_deterministic_app :
    wfKeys jA = true ∧ wfKeys jB = true ∧ nf jA = nf jB ∧
      hash jA = hash jB :=
  ⟨by decide, by decide, rfl,
   hash_canonical_deterministic.1 jA jB (by decide) (by decide) rfl⟩

end Blockchain

namespace Blockchain

/-- C2 counterexample: a peer that lies about its length (reports 5 for a
1-block chain) gets its chain adopted even though the adopted chain is not
strictly longer than the local chain — the code compares the REPORTED
length, never the actual one. -/
theorem resolve_adopts_shorter_reported :
    (resolve_conflicts (init 0) [.ok 200 5 [oddGenesis]]).2 = .ok true ∧
    (resolve_conflicts (init 0) [.ok 200 5 [oddGenesis]]).1.chain =
      [oddGenesis] ∧
    ¬ (init 0).chain.length <
       (resolve_conflicts (init 0) [.ok 200 5 [oddGenesis]]).1.chain.length := by
  refine ⟨by decide, by decide, by decide⟩

/-- C2 amended: when `resolve_conflicts` reports a replacement, the adopted
chain is some peer's chain that passed `valid_chain`, whose REPORTED length
strictly exceeds the local chain's length and is maximal among all valid
200-responses; otherwise the state is exactly as before. -/
theorem resolve_conflicts_spec (s : State) (rs : List PeerResponse) :
    ((resolve_conflicts s rs).2 = .ok true →
      ∃ len c, PeerResponse.ok 200 len c ∈ rs ∧
        (resolve_conflicts s rs).1 = { s with chain := c } ∧
        valid_chain c = some true ∧ (s.chain.length : Int) < len ∧
        ∀ len' c', PeerResponse.ok 200 len' c' ∈ rs →
          valid_chain c' = some true → len' ≤ len)
    ∧ ((resolve_conflicts s rs).2 ≠ .ok true →
        (resolve_conflicts s rs).1 = s) := by
  obtain ⟨hno, hyes⟩ := resolve_conflicts_cases s rs
  refine ⟨?_, hno⟩
  intro h
  obtain ⟨len, c, hmem, heq, hvc, hlt, _, hmax⟩ := hyes h
  exact ⟨len, c, hmem, heq, hvc, hlt, hmax⟩

/-- C2 witness: the theorem applied to the lying single peer. -/
theorem resolve_conflicts_spec_app :
    (resolve_conflicts (init 0) [.ok 200 5 [oddGenesis]]).2 = .ok true ∧
    ∃ len c,
      PeerResponse.ok 200 len c ∈ [PeerResponse.ok 200 5 [oddGenesis]] ∧
      (resolve_conflicts (init 0) [.ok 200 5 [oddGenesis]]).1 =
        { init 0 with chain := c } ∧
      valid_chain c = some true ∧ (((init 0).chain.length : Int)) < len ∧
      ∀ len' c',
        PeerResponse.ok 200 len' c' ∈ [PeerResponse.ok 200 5 [oddGenesis]] →
          valid_chain c' = some true → len' ≤ len :=
  ⟨by decide,
   (resolve_conflicts_spec (init 0) [.ok 200 5 [oddGenesis]]).1 (by decide)⟩

/-- C5 counterexample: a raising peer fetch is fatal — with the raising
peer first, resolution aborts with the exception and the remaining peer is
never examined, even though that peer alone would have replaced the
chain. -/
theorem resolve_fetch_error_fatal :
    resolve_conflicts (init 0) [.raise, .ok 200 5 [oddBlock]] =
      (init 0, .exn) ∧
    (resolve_conflicts (init 0) [.ok 200 5 [oddBlock]]).2 = .ok true := by
  refine ⟨by decide, by decide⟩

/-- C5 amended: a peer answering with a non-200 status is skipped and the
remaining peers are processed exactly as if it were absent; a replacement is
all-or-nothing — any outcome other than a replacement leaves the state
untouched (in particular an exception, since `self.chain` is only assigned
after the loop), and a replacement installs a full peer-supplied chain. -/
theorem resolve_skip_and_atomic (s : State) (st : Nat) (len : Int)
    (c : List Block) (rs : List PeerResponse) (hst : st ≠ 200) :
    resolve_conflicts s (.ok st len c :: rs) = resolve_conflicts s rs
    ∧ ((resolve_conflicts s rs).2 ≠ .ok true → (resolve_conflicts s rs).1 = s)
    ∧ ((resolve_conflicts s rs).2 = .ok true →
        ∃ len' c', PeerResponse.ok 200 len' c' ∈ rs ∧
          (resolve_conflicts s rs).1 = { s with chain := c' }) := by
  obtain ⟨hno, hyes⟩ := resolve_conflicts_cases s rs
  refine ⟨?_, hno, ?_⟩
  · unfold resolve_conflicts
    rw [resolveLoop, if_neg hst]
  · intro h
    obtain ⟨len', c', hmem, heq, _, _, _, _⟩ := hyes h
    exact ⟨len', c', hmem, heq⟩

/-- C5 witness: a 404 peer in front of an empty peer list is a no-op. -/
theorem resolve_skip_and_atomic_app :
    (404 : Nat) ≠ 200 ∧
    resolve_conflicts (init 0) [.ok 404 7 [oddBlock]] =
      resolve_conflicts (init 0) [] :=
  ⟨by decide,
   (resolve_skip_and_atomic (init 0) 404 7 [oddBlock] [] (by decide)).1⟩

/-- C3 counterexample: the raw public `new_block(proof=0,
previous_hash='x')` reaches, in one step from startup, a state whose chain
violates the invariant (`valid_proof(100, 0)` is false, and `"x"` is not
the predecessor's hash). -/
theorem reachable_breaks_invariant :
    Reachable rawBlockState ∧ ¬ ChainInv rawBlockState.chain := by
  constructor
  · refine ⟨0, Relation.ReflTransGen.single ?_⟩
    exact StepVia.newBlock (init 0) 0 (some "x") 0 rawBlockState
      ⟨2, 0, [], 0, "x"⟩ (by decide)
  · intro hinv
    have h2 := hinv 0 (by decide)
    exact absurd h2.2 (by decide)

/-- C3 amended: along the operations actually reachable through the HTTP
routes — `new_transaction`, `register_node`, `resolve_conflicts` and `mine`
(where `new_block` is invoked only with a freshly mined proof and the
default `previous_hash`) — every reachable state's chain satisfies the
link-and-proof invariant; a direct `new_block` call with caller-chosen
arguments can break it. -/
theorem reachable_routes_chain_invariant (s : State)
    (h : ReachableRoutes s) : ChainInv s.chain := by
  obtain ⟨t, hsteps⟩ := h
  refine chainInv_of_stepsRoutes (init t) s hsteps ?_
  rw [init_chain]
  exact chainInv_singleton _

/-- C3 witness: the freshly initialized node. -/
theorem reachable_routes_chain_invariant_app :
    ReachableRoutes (init 0) ∧ ChainInv (init 0).chain :=
  ⟨⟨0, Relation.ReflTransGen.refl⟩,
   reachable_routes_chain_invariant (init 0) ⟨0, Relation.ReflTransGen.refl⟩⟩

/-- C7 counterexample: after resolving against a peer whose (valid) chain
carries `index = 999` in its last block, `new_transaction` returns 1000,
not the chain length plus 1 (which is 3) — the code returns
`last_block['index'] + 1`, not `len(chain) + 1`. -/
theorem new_transaction_index_not_length :
    Reachable adoptedState ∧
    (new_transaction adoptedState "A" "B" 10).2 = some 1000 ∧
    adoptedState.chain.length = 2 ∧
    (new_transaction adoptedState "A" "B" 10).2 ≠
      some ((adoptedState.chain.length : Int) + 1) := by
  refine ⟨?_, by decide, by decide, by decide⟩
  have h1 : Relation.ReflTransGen (StepVia true) (init 0)
      (register_node (init 0) "peer:5000") :=
    Relation.ReflTransGen.single
      (StepVia.registerNode true (init 0) "peer:5000")
  have h2 : StepVia true (register_node (init 0) "peer:5000") adoptedState :=
    StepVia.resolveOp true (register_node (init 0) "peer:5000")
      [.ok 200 5 oddChain] (by decide)
  exact ⟨0, h1.tail h2⟩

/-- C7 amended: `new_transaction` appends exactly the submitted transaction
to the pending buffer, leaves the chain unchanged, and returns the LAST
BLOCK'S INDEX plus 1 (which equals chain length + 1 whenever block indices
match their positions, as for the genesis-only chain, where it returns 2). -/
theorem new_transaction_spec (s : State) (lb : Block)
    (hlb : s.chain.getLast? = some lb) (sender recipient : String)
    (amount : Int) :
    new_transaction s sender recipient amount =
      ({ s with current_transactions :=
          s.current_transactions ++ [⟨sender, recipient, amount⟩] },
        some (lb.index + 1))
    ∧ (new_transaction s sender recipient amount).1.chain = s.chain := by
  refine ⟨?_, rfl⟩
  simp [new_transaction, hlb]

/-- C7 witness: on the genesis-only chain the call returns index 2 and
appends the transaction. -/
theorem new_transaction_spec_app :
    (init 0).chain.getLast? = some ⟨1, 0, [], 100, "1"⟩ ∧
    new_transaction (init 0) "A" "B" 10 =
      ({ init 0 with current_transactions := [⟨"A", "B", 10⟩] }, some 2) := by
  refine ⟨by decide, ?_⟩
  exact ((new_transaction_spec (init 0) ⟨1, 0, [], 100, "1"⟩ (by decide)
    "A" "B" 10).1).trans (by decide)

/-- C8 counterexample: `new_block` with the explicitly supplied (empty
string) `previous_hash` does not use the supplied value — Python's
`previous_hash or self.hash(...)` treats the falsy `""` as absent and
stores the hash of the last block instead. -/
theorem new_block_empty_previous_hash_ignored :
    ((new_block (init 0) 7 (some "") 1).map fun r => r.2.previous_hash) =
      some
        "1eea62564c3792c0931dedc88a415bce77a46bedac09fed270a7f8accef22b10" ∧
    ((new_block (init 0) 7 (some "") 1).map fun r => r.2.previous_hash) ≠
      some "" := by
  refine ⟨by decide, by decide⟩

/-- C8 amended: on a non-empty chain, `new_block` appends and returns a
block carrying exactly the pending buffer, index = old length + 1, and
previous_hash = the supplied value when that value is TRUTHY (non-empty) or
the hash of the old last block otherwise; afterwards the buffer is empty.
Growing the chain in place is unique to `new_block`: `new_transaction` and
`register_node` never touch the chain, and `resolve_conflicts` either
leaves it or replaces it wholesale by a peer-supplied chain. -/
theorem new_block_spec (s : State) (lb : Block)
    (hlb : s.chain.getLast? = some lb) (proof t : Int) :
    (∃ b : Block,
      new_block s proof none t =
        some ({ s with
                  current_transactions := [],
                  chain := s.chain ++ [b] }, b) ∧
      b.transactions = s.current_transactions ∧
      b.index = (s.chain.length : Int) + 1 ∧
      b.previous_hash = hashBlock lb ∧ b.proof = proof ∧ b.timestamp = t)
    ∧ (∀ ph : String, ph ≠ "" →
        ∃ b : Block,
          new_block s proof (some ph) t =
            some ({ s with
                      current_transactions := [],
                      chain := s.chain ++ [b] }, b) ∧
          b.transactions = s.current_transactions ∧
          b.index = (s.chain.length : Int) + 1 ∧
          b.previous_hash = ph ∧ b.proof = proof ∧ b.timestamp = t)
    ∧ (∀ sender recipient : String, ∀ amount : Int,
        (new_transaction s sender recipient amount).1.chain = s.chain)
    ∧ (∀ netloc : String, (register_node s netloc).chain = s.chain)
    ∧ (∀ rs : List PeerResponse,
        (resolve_conflicts s rs).1.chain = s.chain ∨
          ∃ len c, PeerResponse.ok 200 len c ∈ rs ∧
            (resolve_conflicts s rs).1.chain = c) := by
  refine ⟨?_, ?_, fun _ _ _ => rfl, fun _ => rfl, ?_⟩
  · exact ⟨_, new_block_none_spec s proof t lb hlb, rfl, rfl, rfl, rfl, rfl⟩
  · intro ph hph
    exact ⟨_, new_block_some_spec s proof t ph hph, rfl, rfl, rfl, rfl, rfl⟩
  · intro rs
    obtain ⟨hno, hyes⟩ := resolve_conflicts_cases s rs
    by_cases h : (resolve_conflicts s rs).2 = .ok true
    · obtain ⟨len, c, hmem, heq, _, _, _, _⟩ := hyes h
      exact Or.inr ⟨len, c, hmem, by rw [heq]⟩
    · exact Or.inl (by rw [hno h])

/-- C8 witness: sealing on the genesis chain with a truthy explicit
previous hash. -/
theorem new_block_spec_app :
    (init 0).chain.getLast? = some ⟨1, 0, [], 100, "1"⟩ ∧
    ("abc" : String) ≠ "" ∧
    ∃ b : Block,
      new_block (init 0) 7 (some "abc") 1 =
        some ({ init 0 with
                  current_transactions := [],
                  chain := (init 0).chain ++ [b] }, b) ∧
      b.transactions = (init 0).current_transactions ∧
      b.index = ((init 0).chain.length : Int) + 1 ∧
      b.previous_hash = "abc" ∧ b.proof = 7 ∧ b.timestamp = 1 :=
  ⟨by decide, by decide,
   (new_block_spec (init 0) ⟨1, 0, [], 100, "1"⟩ (by decide) 7 1).2.1 "abc"
     (by decide)⟩

end Blockchain
